import Mathlib

/-!
Shallow embedding of the RAG pipeline of the ai-chatbot-rag repository
(src/lib/rag/chunking.ts, embeddings.ts, pinecone.ts, retrieval.ts,
pipeline.ts and the document DELETE route), together with theorems that
settle the frozen claims about it.

External collaborators (the langchain text splitter, the OpenAI embedding
endpoint, the Pinecone index, the blob store and the database) are passed
in as explicit parameters: the functions below embed exactly the logic the
repository itself contains, applied to an arbitrary collaborator response.
JavaScript numbers are modelled as rationals, array indices and lengths as
naturals, and thrown exceptions as the Except monad.
-/

/-- Model of the ChatSDKError values thrown across the RAG modules:
a code such as "bad_request:rag" plus a message. -/
structure ChatSDKError where
  code : String
  message : String
deriving Repr, DecidableEq

/-- JS String.prototype.trim on the character list of a string.
Char.isWhitespace covers space, tab, CR and LF; JS trims a slightly larger
Unicode class, which no claim here depends on. -/
def jsTrim (s : String) : String :=
  ⟨((s.data.dropWhile Char.isWhitespace).reverse.dropWhile Char.isWhitespace).reverse⟩

/-- JS String.prototype.toLowerCase, restricted to the ASCII lowering of
Char.toLower, which is all the claims exercise. -/
def jsToLower (s : String) : String :=
  ⟨s.data.map Char.toLower⟩

mutual
/-- State of JS split on a whitespace run regex while inside a word whose
characters so far are acc, reversed. -/
def jsSplitWsWord : List Char → List Char → List (List Char)
  | [], acc => [acc.reverse]
  | c :: rest, acc =>
    if c.isWhitespace then acc.reverse :: jsSplitWsSkip rest
    else jsSplitWsWord rest (c :: acc)

/-- State of JS split on a whitespace run regex while consuming the
whitespace run itself; reaching the end here yields the trailing empty
string that JS split produces. -/
def jsSplitWsSkip : List Char → List (List Char)
  | [] => [[]]
  | c :: rest =>
    if c.isWhitespace then jsSplitWsSkip rest
    else jsSplitWsWord rest [c]
end

/-- JS content.split on a whitespace run regex: substrings between maximal
whitespace runs, including a leading empty string when the string starts
with whitespace, a trailing empty string when it ends with whitespace, and
a single empty string for the empty input. -/
def jsSplitWs (s : String) : List String :=
  (jsSplitWsWord s.data []).map fun cs => ⟨cs⟩

/-! ## chunking.ts -/

/-- Position metadata attached to every chunk (chunking.ts,
DocumentChunkData.metadata). The source also declares an optional section
field that no code path ever sets; it is omitted here. -/
structure ChunkMetadata where
  startIndex : Int
  endIndex : Int
  fileName : Option String
  page : Option Nat
deriving Repr, DecidableEq

/-- A chunk record as produced by the chunker (chunking.ts,
DocumentChunkData). -/
structure DocumentChunkData where
  content : String
  chunkIndex : Nat
  tokenCount : Nat
  metadata : ChunkMetadata
deriving Repr, DecidableEq

/-- estimateTokenCount (chunking.ts): Math.ceil of length divided by four,
which on naturals is div by four after adding three. -/
def estimateTokenCount (text : String) : Nat :=
  (text.length + 3) / 4

/-- The indexing loop of splitIntoChunks (chunking.ts): walks the strings
the splitter returned, assigning consecutive chunk indices starting at i
and tracking currentIndex, which advances by chunk length minus overlap.
The content is trimmed, but tokenCount is computed from the raw chunk. -/
def buildChunks (chunkOverlap : Int) (fileName : Option String) :
    List String → Nat → Int → List DocumentChunkData
  | [], _, _ => []
  | chunk :: rest, i, currentIndex =>
    { content := jsTrim chunk
      chunkIndex := i
      tokenCount := estimateTokenCount chunk
      metadata :=
        { startIndex := currentIndex
          endIndex := currentIndex + chunk.length
          fileName := fileName
          page := none } }
      :: buildChunks chunkOverlap fileName rest (i + 1)
          (currentIndex + chunk.length - chunkOverlap)

/-- splitIntoChunks (chunking.ts). The RecursiveCharacterTextSplitter call
is external library code, so the splitter is a parameter giving the list of
strings splitText returns for the text. Blank input throws the empty-text
ChatSDKError before the splitter is consulted. -/
def splitIntoChunks (splitter : String → List String)
    (text : String) (fileName : Option String) (chunkOverlap : Int) :
    Except ChatSDKError (List DocumentChunkData) :=
  if jsTrim text = "" then
    .error ⟨"bad_request:rag", "Text cannot be empty"⟩
  else
    .ok (buildChunks chunkOverlap fileName (splitter text) 0 0)

/-- One page of input to splitPDFByPages (chunking.ts). -/
structure PageInput where
  content : String
  pageNumber : Nat
deriving Repr, DecidableEq

/-- The per-page map of splitPDFByPages (chunking.ts): overwrite each chunk
index with the running global counter and record the page number in the
metadata. -/
def renumberPage (pageNumber : Nat) :
    List DocumentChunkData → Nat → List DocumentChunkData
  | [], _ => []
  | c :: cs, g =>
    { c with chunkIndex := g, metadata := { c.metadata with page := some pageNumber } }
      :: renumberPage pageNumber cs (g + 1)

/-- The page loop of splitPDFByPages (chunking.ts): chunk each page with
splitIntoChunks, renumber with the global counter, concatenate; any page
error aborts the whole call. -/
def splitPDFPagesGo (splitter : String → List String)
    (fileName : Option String) (chunkOverlap : Int) :
    List PageInput → Nat → Except ChatSDKError (List DocumentChunkData)
  | [], _ => .ok []
  | page :: rest, g =>
    match splitIntoChunks splitter page.content fileName chunkOverlap with
    | .error e => .error e
    | .ok chunks =>
      match splitPDFPagesGo splitter fileName chunkOverlap rest (g + chunks.length) with
      | .error e => .error e
      | .ok more => .ok (renumberPage page.pageNumber chunks g ++ more)

/-- splitPDFByPages (chunking.ts). The surrounding try block rethrows a
ChatSDKError unchanged, and the only errors raised inside are
ChatSDKErrors, so the wrapper is the identity on the error path. -/
def splitPDFByPages (splitter : String → List String)
    (pages : List PageInput) (fileName : Option String) (chunkOverlap : Int) :
    Except ChatSDKError (List DocumentChunkData) :=
  splitPDFPagesGo splitter fileName chunkOverlap pages 0

/-! ## retrieval.ts -/

/-- Vector metadata stored with every Pinecone record (pinecone.ts,
VectorRecord.metadata). -/
structure VectorMetadata where
  documentId : String
  knowledgeBaseId : String
  chunkIndex : Nat
  content : String
  fileName : String
  tokenCount : Nat
  createdAt : String
deriving Repr, DecidableEq

/-- A search result after queryVectors (pinecone.ts, SearchResult). -/
structure SearchResult where
  id : String
  score : ℚ
  metadata : VectorMetadata
deriving Repr, DecidableEq

/-- calculateContentSimilarity (retrieval.ts): word-set Jaccard similarity
of the two contents, lowered and split on whitespace runs. -/
def calculateContentSimilarity (content1 content2 : String) : ℚ :=
  let words1 := (jsSplitWs (jsToLower content1)).toFinset
  let words2 := (jsSplitWs (jsToLower content2)).toFinset
  ((words1 ∩ words2).card : ℚ) / ((words1 ∪ words2).card : ℚ)

/-- The candidate loop of applyDiversityFilter (retrieval.ts): a candidate
is admitted exactly when no already selected result has content similarity
strictly above the threshold, and admitted candidates are appended to the
selected list. -/
def diversityLoop (threshold : ℚ) :
    List SearchResult → List SearchResult → List SearchResult
  | [], diverse => diverse
  | c :: cs, diverse =>
    if ∀ s ∈ diverse,
        calculateContentSimilarity c.metadata.content s.metadata.content ≤ threshold then
      diversityLoop threshold cs (diverse ++ [c])
    else
      diversityLoop threshold cs diverse

/-- applyDiversityFilter (retrieval.ts): lists of length at most one are
returned unchanged, otherwise the first result seeds the selected list and
the loop scans the rest. -/
def applyDiversityFilter (results : List SearchResult) (threshold : ℚ) :
    List SearchResult :=
  match results with
  | [] => []
  | [r] => [r]
  | r :: rest => diversityLoop threshold rest [r]

/-- An enriched chunk as assembled inside retrieveRelevantContext
(retrieval.ts) right before applyTokenLimit. -/
structure EnrichedChunk where
  id : String
  content : String
  fileName : String
  chunkIndex : Nat
  similarity : ℚ
  tokenCount : Nat
  metadata : ChunkMetadata
deriving Repr, DecidableEq

/-- Insertion step of a stable descending sort by a rational key: the new
element goes after every earlier element whose key is strictly larger, and
also after earlier elements with an equal key, matching the stable JS
Array sort with a descending comparator. -/
def insertDescBy {α : Type} (key : α → ℚ) (a : α) : List α → List α
  | [] => [a]
  | b :: bs => if key a < key b then b :: insertDescBy key a bs else a :: b :: bs

/-- Stable descending sort by a rational key, modelling the JS Array sort
with comparator subtracting the keys. -/
def stableSortDescBy {α : Type} (key : α → ℚ) : List α → List α
  | [] => []
  | x :: xs => insertDescBy key x (stableSortDescBy key xs)

/-- The greedy admission loop of applyTokenLimit (retrieval.ts): admit a
chunk whenever the running total plus its token count stays within
maxTokens, otherwise skip it and keep scanning. -/
def tokenLimitLoop (maxTokens : Nat) :
    List EnrichedChunk → Nat → List EnrichedChunk
  | [], _ => []
  | c :: cs, total =>
    if total + c.tokenCount ≤ maxTokens then
      c :: tokenLimitLoop maxTokens cs (total + c.tokenCount)
    else
      tokenLimitLoop maxTokens cs total

/-- applyTokenLimit (retrieval.ts): sort by descending similarity, then
admit greedily under the token budget. -/
def applyTokenLimit (chunks : List EnrichedChunk) (maxTokens : Nat) :
    List EnrichedChunk :=
  tokenLimitLoop maxTokens (stableSortDescBy (fun c => c.similarity) chunks) 0

/-! ## pinecone.ts -/

/-- One raw match of the Pinecone query response (the external index),
whose score field is optional in the Pinecone client types. -/
structure PineconeMatch where
  id : String
  score : Option ℚ
  metadata : VectorMetadata
deriving Repr, DecidableEq

/-- The filter and map steps of queryVectors (pinecone.ts). The filter is
the JS conjunction of the truthiness of the score with the comparison
against minScore, so a missing score and a score of exactly zero are both
rejected; the map keeps id, score and metadata. -/
def keepMatch (minScore : ℚ) (m : PineconeMatch) : Option SearchResult :=
  match m.score with
  | none => none
  | some s => if s ≠ 0 ∧ minScore ≤ s then some ⟨m.id, s, m.metadata⟩ else none

/-- queryVectors (pinecone.ts), applied to the match list the external
index returned for the request: filter and map the matches, then sort by
descending score with the stable JS Array sort. The topK value and the
knowledgeBaseId equality filter are part of the request the external index
answers, so they live in the matches parameter. -/
def queryVectors (queryMatches : List PineconeMatch) (minScore : ℚ) : List SearchResult :=
  stableSortDescBy (fun r => r.score) (queryMatches.filterMap (keepMatch minScore))

/-- deleteVectorsByDocument (pinecone.ts), applied to the outcome of the
filtered deleteMany call on the external index: a failure is caught and
rethrown as a ChatSDKError, so this function does throw. -/
def deleteVectorsByDocument (indexDelete : Except String Unit) :
    Except ChatSDKError Unit :=
  match indexDelete with
  | .ok _ => .ok ()
  | .error msg => .error ⟨"bad_request:rag", "Failed to delete vectors: " ++ msg⟩

/-- deleteVectorsByKnowledgeBase (pinecone.ts), applied to the outcome of
the id-resolving query (the list of matching vector ids) and of the
delete-by-ids call: any failure is caught, logged and swallowed, so the
function always returns successfully. -/
def deleteVectorsByKnowledgeBase (queryIds : Except String (List String))
    (deleteByIds : List String → Except String Unit) : Except ChatSDKError Unit :=
  match queryIds with
  | .error _ => .ok ()
  | .ok ids =>
    if ids.length > 0 then
      match deleteByIds ids with
      | .ok _ => .ok ()
      | .error _ => .ok ()
    else .ok ()

/-- Outcome of the vector-then-metadata deletion sequence of the document
DELETE route (app/api/knowledge/[id]/documents/[docId]/route.ts). -/
structure DocumentDeleteOutcome where
  vectorDeletionError : Option ChatSDKError
  metadataDeleted : Bool
deriving Repr, DecidableEq

/-- The deletion core of the document DELETE route: call
deleteVectorsByDocument inside a try block that logs and swallows any
error, then delete the metadata row unconditionally. -/
def deleteDocumentRoute (indexDelete : Except String Unit) : DocumentDeleteOutcome :=
  match deleteVectorsByDocument indexDelete with
  | .ok _ => { vectorDeletionError := none, metadataDeleted := true }
  | .error e => { vectorDeletionError := some e, metadataDeleted := true }

/-! ## embeddings.ts -/

/-- Sequential fail-fast effectful map in the Except monad. It models both
the sequential awaiting of generateEmbeddings across batches and the
Promise.all combination within a batch, whose value on success is the
results in input order and whose failure is the first failing element. -/
def mapE {α β ε : Type} (f : α → Except ε β) : List α → Except ε (List β)
  | [] => .ok []
  | x :: xs =>
    match f x with
    | .error e => .error e
    | .ok y =>
      match mapE f xs with
      | .error e => .error e
      | .ok ys => .ok (y :: ys)

/-- generateEmbedding (embeddings.ts), applied to the provider response
for the text: reject blank text and text longer than 8000 characters,
propagate a provider failure, reject a missing embedding and an embedding
whose dimension is not 1536, and return the vector otherwise. -/
def generateEmbedding (provider : String → Except ChatSDKError (Option (List ℚ)))
    (text : String) : Except ChatSDKError (List ℚ) :=
  if jsTrim text = "" then
    .error ⟨"bad_request:rag", "Text cannot be empty"⟩
  else if 8000 < text.length then
    .error ⟨"bad_request:rag", "Text too long for embedding"⟩
  else
    match provider text with
    | .error e => .error e
    | .ok none => .error ⟨"bad_request:rag", "Invalid embedding response"⟩
    | .ok (some embedding) =>
      if embedding.length ≠ 1536 then
        .error ⟨"bad_request:rag", "Invalid embedding response"⟩
      else
        .ok embedding

/-- The slicing loop of generateEmbeddings (embeddings.ts): consecutive
windows of b elements. With b equal to zero the source loop never
advances and diverges, so that case is unreachable under the batchSize
hypothesis of the theorems and is given the value of the empty window
list. -/
def chunkBatches {α : Type} (b : Nat) : List α → List (List α)
  | [] => []
  | x :: xs =>
    if b = 0 then []
    else (x :: xs).take b :: chunkBatches b (xs.drop (b - 1))
termination_by l => l.length
decreasing_by
  simp only [List.length_cons, List.length_drop]
  omega

/-- generateEmbeddings (embeddings.ts): empty input short-circuits to the
empty list; otherwise each window is embedded element by element via
Promise.all and the window results are concatenated in order. -/
def generateEmbeddings (provider : String → Except ChatSDKError (Option (List ℚ)))
    (texts : List String) (batchSize : Nat) :
    Except ChatSDKError (List (List ℚ)) :=
  if texts.isEmpty then .ok []
  else
    match mapE (fun batch => mapE (generateEmbedding provider) batch)
        (chunkBatches batchSize texts) with
    | .error e => .error e
    | .ok batches => .ok batches.flatten

/-! ## pipeline.ts -/

/-- The document status values (db schema and pipeline.ts). -/
inductive RAGDocumentStatus where
  | uploading
  | processing
  | ready
  | failed
deriving Repr, DecidableEq

/-- The file fields uploadAndProcessDocument reads (name, MIME type and
byte size). -/
structure UploadFile where
  name : String
  mimeType : String
  size : Nat
deriving Repr, DecidableEq

/-- allowedTypes (pipeline.ts). -/
def allowedTypes : List String :=
  ["application/pdf",
   "text/plain",
   "application/vnd.openxmlformats-officedocument.wordprocessingml.document"]

/-- The 10MB upload ceiling (pipeline.ts). -/
def maxUploadSize : Nat := 10 * 1024 * 1024

/-- The externally observable store operations of the synchronous part of
uploadAndProcessDocument, in execution order. -/
inductive UploadStep where
  | putBlob (name : String)
  | createDocument (status : RAGDocumentStatus)
deriving Repr, DecidableEq

/-- uploadAndProcessDocument (pipeline.ts), as the ordered trace of store
operations its synchronous part performs, applied to the outcome of the
blob put: validate the MIME type and the size, store the bytes in the
blob store, then create the document row with status processing. The
detached processDocumentAsync continuation runs after the function
returns and performs no further writes before its first await, so it is
outside this trace. -/
def uploadAndProcessDocument (file : UploadFile) (blobPut : Except String Unit) :
    Except ChatSDKError (List UploadStep) :=
  if ¬ allowedTypes.contains file.mimeType then
    .error ⟨"bad_request:rag",
      "Unsupported file type. Only PDF, TXT, and DOCX files are supported."⟩
  else if maxUploadSize < file.size then
    .error ⟨"bad_request:rag", "File too large. Maximum size is 10MB."⟩
  else
    match blobPut with
    | .error msg => .error ⟨"bad_request:rag", "Failed to upload document: " ++ msg⟩
    | .ok _ =>
      .ok [UploadStep.putBlob file.name,
           UploadStep.createDocument RAGDocumentStatus.processing]

/-!
## Theorems

Helper lemmas come first, then one theorem per claim, each preceded by a
doc comment naming the claim.
-/

theorem tokenLimitLoop_sum (mt : Nat) :
    ∀ (l : List EnrichedChunk) (total : Nat), total ≤ mt →
      total + ((tokenLimitLoop mt l total).map (fun c => c.tokenCount)).sum ≤ mt := by
  intro l
  induction l with
  | nil => intro total h; simpa [tokenLimitLoop] using h
  | cons c cs ih =>
    intro total h
    by_cases hc : total + c.tokenCount ≤ mt
    · simp only [tokenLimitLoop, if_pos hc, List.map_cons, List.sum_cons]
      have := ih (total + c.tokenCount) hc
      omega
    · simp only [tokenLimitLoop, if_neg hc]
      exact ih total h

theorem tokenLimitLoop_mem (mt : Nat) :
    ∀ (l : List EnrichedChunk) (total : Nat) (c : EnrichedChunk),
      c ∈ tokenLimitLoop mt l total → c.tokenCount ≤ mt := by
  intro l
  induction l with
  | nil => intro total c h; simp [tokenLimitLoop] at h
  | cons d ds ih =>
    intro total c h
    by_cases hd : total + d.tokenCount ≤ mt
    · simp only [tokenLimitLoop, if_pos hd] at h
      rcases List.mem_cons.mp h with rfl | h2
      · omega
      · exact ih _ _ h2
    · simp only [tokenLimitLoop, if_neg hd] at h
      exact ih _ _ h

theorem tokenLimitLoop_sublist (mt : Nat) :
    ∀ (l : List EnrichedChunk) (total : Nat),
      List.Sublist (tokenLimitLoop mt l total) l := by
  intro l
  induction l with
  | nil => intro total; simp [tokenLimitLoop]
  | cons d ds ih =>
    intro total
    by_cases hd : total + d.tokenCount ≤ mt
    · simp only [tokenLimitLoop, if_pos hd]
      exact List.Sublist.cons₂ d (ih _)
    · simp only [tokenLimitLoop, if_neg hd]
      exact List.Sublist.cons d (ih _)

/-- C1: for every candidate list and every token budget, applyTokenLimit
admits a subsequence of the candidates sorted by descending similarity,
the admitted token counts sum to at most maxTokens, and no admitted chunk
alone exceeds maxTokens. -/
theorem applyTokenLimit_budget (chunks : List EnrichedChunk) (maxTokens : Nat) :
    ((applyTokenLimit chunks maxTokens).map (fun c => c.tokenCount)).sum ≤ maxTokens ∧
    (∀ c ∈ applyTokenLimit chunks maxTokens, c.tokenCount ≤ maxTokens) ∧
    List.Sublist (applyTokenLimit chunks maxTokens)
      (stableSortDescBy (fun c => c.similarity) chunks) := by
  refine ⟨?_, ?_, ?_⟩
  · have := tokenLimitLoop_sum maxTokens
      (stableSortDescBy (fun c => c.similarity) chunks) 0 (Nat.zero_le _)
    simpa [applyTokenLimit] using this
  · intro c hc
    exact tokenLimitLoop_mem maxTokens _ 0 c hc
  · exact tokenLimitLoop_sublist maxTokens _ 0

/-- Closed instance of the C1 theorem at a concrete two-chunk input. -/
theorem applyTokenLimit_budget_witness :
    ((applyTokenLimit
        [⟨"c1", "alpha", "f.txt", 0, 9/10, 3, ⟨0, 5, none, none⟩⟩,
         ⟨"c2", "beta", "f.txt", 1, 8/10, 4, ⟨3, 8, none, none⟩⟩] 5).map
        (fun c => c.tokenCount)).sum ≤ 5 :=
  (applyTokenLimit_budget
    [⟨"c1", "alpha", "f.txt", 0, 9/10, 3, ⟨0, 5, none, none⟩⟩,
     ⟨"c2", "beta", "f.txt", 1, 8/10, 4, ⟨3, 8, none, none⟩⟩] 5).1

theorem calculateContentSimilarity_comm (s1 s2 : String) :
    calculateContentSimilarity s1 s2 = calculateContentSimilarity s2 s1 := by
  simp only [calculateContentSimilarity]
  rw [Finset.inter_comm, Finset.union_comm]

theorem diversityLoop_append (θ : ℚ) :
    ∀ (cs diverse : List SearchResult),
      ∃ t, diversityLoop θ cs diverse = diverse ++ t := by
  intro cs
  induction cs with
  | nil => intro d; exact ⟨[], by simp [diversityLoop]⟩
  | cons c cs ih =>
    intro d
    by_cases h : ∀ s ∈ d,
        calculateContentSimilarity c.metadata.content s.metadata.content ≤ θ
    · simp only [diversityLoop, if_pos h]
      obtain ⟨t, ht⟩ := ih (d ++ [c])
      exact ⟨[c] ++ t, by rw [ht, List.append_assoc]⟩
    · simp only [diversityLoop, if_neg h]
      exact ih d

theorem diversityLoop_pairwise (θ : ℚ) :
    ∀ (cs diverse : List SearchResult),
      List.Pairwise (fun a b =>
        calculateContentSimilarity a.metadata.content b.metadata.content ≤ θ) diverse →
      List.Pairwise (fun a b =>
        calculateContentSimilarity a.metadata.content b.metadata.content ≤ θ)
        (diversityLoop θ cs diverse) := by
  intro cs
  induction cs with
  | nil => intro d hd; simpa [diversityLoop] using hd
  | cons c cs ih =>
    intro d hd
    by_cases h : ∀ s ∈ d,
        calculateContentSimilarity c.metadata.content s.metadata.content ≤ θ
    · simp only [diversityLoop, if_pos h]
      apply ih
      rw [List.pairwise_append]
      refine ⟨hd, List.pairwise_singleton _ _, ?_⟩
      intro a ha b hb
      rw [List.mem_singleton] at hb
      subst hb
      have hac := h a ha
      rw [calculateContentSimilarity_comm] at hac
      exact hac
    · simp only [diversityLoop, if_neg h]
      exact ih d hd

/-- C2 counterexample: with threshold one third, the contents "a b" and
"b c" have Jaccard similarity exactly one third, which the filter does not
reject because rejection requires similarity strictly above the threshold;
both results are admitted even though their similarity is at least the
threshold. -/
theorem jaccard_bc_ab : calculateContentSimilarity "b c" "a b" = 1/3 := by
  have h1 : ((jsSplitWs (jsToLower "b c")).toFinset ∩
      (jsSplitWs (jsToLower "a b")).toFinset).card = 1 := by decide
  have h2 : ((jsSplitWs (jsToLower "b c")).toFinset ∪
      (jsSplitWs (jsToLower "a b")).toFinset).card = 3 := by decide
  show (((jsSplitWs (jsToLower "b c")).toFinset ∩
      (jsSplitWs (jsToLower "a b")).toFinset).card : ℚ) /
      (((jsSplitWs (jsToLower "b c")).toFinset ∪
      (jsSplitWs (jsToLower "a b")).toFinset).card : ℚ) = 1/3
  rw [h1, h2]
  norm_num

theorem applyDiversityFilter_boundary_cx :
    applyDiversityFilter
      [⟨"v1", 2, ⟨"d1", "kb", 0, "a b", "f.txt", 1, "t"⟩⟩,
       ⟨"v2", 1, ⟨"d1", "kb", 1, "b c", "f.txt", 1, "t"⟩⟩] (1/3) =
      [⟨"v1", 2, ⟨"d1", "kb", 0, "a b", "f.txt", 1, "t"⟩⟩,
       ⟨"v2", 1, ⟨"d1", "kb", 1, "b c", "f.txt", 1, "t"⟩⟩] ∧
    (1/3 : ℚ) ≤ calculateContentSimilarity "a b" "b c" := by
  constructor
  · show diversityLoop (1/3) [⟨"v2", 1, ⟨"d1", "kb", 1, "b c", "f.txt", 1, "t"⟩⟩]
      [⟨"v1", 2, ⟨"d1", "kb", 0, "a b", "f.txt", 1, "t"⟩⟩] = _
    have hcond : ∀ s ∈ [(⟨"v1", 2, ⟨"d1", "kb", 0, "a b", "f.txt", 1, "t"⟩⟩ : SearchResult)],
        calculateContentSimilarity "b c" s.metadata.content ≤ 1/3 := by
      intro s hs
      rw [List.mem_singleton] at hs
      subst hs
      show calculateContentSimilarity "b c" "a b" ≤ 1/3
      rw [jaccard_bc_ab]
    simp only [diversityLoop, if_pos hcond]
    rfl
  · rw [calculateContentSimilarity_comm, jaccard_bc_ab]

/-- C2 amended: no two results admitted by applyDiversityFilter have
pairwise word-set Jaccard similarity strictly above the threshold; a
candidate is kept exactly when its similarity to every already kept result
is at most the threshold, so similarity equal to the threshold is
admitted. -/
theorem applyDiversityFilter_pairwise (results : List SearchResult) (θ : ℚ) :
    List.Pairwise (fun a b =>
      calculateContentSimilarity a.metadata.content b.metadata.content ≤ θ)
      (applyDiversityFilter results θ) := by
  match results with
  | [] => simp [applyDiversityFilter]
  | [r] => simp [applyDiversityFilter]
  | r :: r1 :: rest =>
    show List.Pairwise _ (diversityLoop θ (r1 :: rest) [r])
    exact diversityLoop_pairwise θ (r1 :: rest) [r] (List.pairwise_singleton _ _)

/-- C9: the diversity filter keeps the first candidate of a non-empty
candidate list unconditionally, so it never empties a non-empty candidate
set and never discards the top-scored candidate. -/
theorem applyDiversityFilter_keeps_first (r : SearchResult)
    (rest : List SearchResult) (θ : ℚ) :
    (applyDiversityFilter (r :: rest) θ).head? = some r ∧
    applyDiversityFilter (r :: rest) θ ≠ [] := by
  match rest with
  | [] => exact ⟨rfl, by simp [applyDiversityFilter]⟩
  | r1 :: rs =>
    obtain ⟨t, ht⟩ := diversityLoop_append θ (r1 :: rs) [r]
    have hshow : applyDiversityFilter (r :: r1 :: rs) θ = diversityLoop θ (r1 :: rs) [r] := rfl
    rw [hshow, ht]
    exact ⟨rfl, by simp⟩

theorem insertDescBy_perm {α : Type} (key : α → ℚ) (a : α) :
    ∀ l : List α, List.Perm (insertDescBy key a l) (a :: l) := by
  intro l
  induction l with
  | nil => simp [insertDescBy]
  | cons b bs ih =>
    by_cases h : key a < key b
    · simp only [insertDescBy, if_pos h]
      exact (List.Perm.cons b ih).trans (List.Perm.swap a b bs)
    · simp [insertDescBy, if_neg h]

theorem stableSortDescBy_perm {α : Type} (key : α → ℚ) :
    ∀ l : List α, List.Perm (stableSortDescBy key l) l := by
  intro l
  induction l with
  | nil => simp [stableSortDescBy]
  | cons x xs ih =>
    exact (insertDescBy_perm key x _).trans (List.Perm.cons x ih)

theorem insertDescBy_sorted {α : Type} (key : α → ℚ) (a : α) :
    ∀ l : List α, List.Pairwise (fun x y => key y ≤ key x) l →
      List.Pairwise (fun x y => key y ≤ key x) (insertDescBy key a l) := by
  intro l
  induction l with
  | nil => intro _; simp [insertDescBy]
  | cons b bs ih =>
    intro h
    rcases List.pairwise_cons.mp h with ⟨hb, hbs⟩
    by_cases hab : key a < key b
    · simp only [insertDescBy, if_pos hab]
      rw [List.pairwise_cons]
      constructor
      · intro y hy
        have hmem := (insertDescBy_perm key a bs).mem_iff.mp hy
        rcases List.mem_cons.mp hmem with rfl | hybs
        · exact le_of_lt hab
        · exact hb y hybs
      · exact ih hbs
    · simp only [insertDescBy, if_neg hab]
      push_neg at hab
      rw [List.pairwise_cons]
      constructor
      · intro y hy
        rcases List.mem_cons.mp hy with rfl | hybs
        · exact hab
        · exact le_trans (hb y hybs) hab
      · exact h

theorem stableSortDescBy_sorted {α : Type} (key : α → ℚ) :
    ∀ l : List α, List.Pairwise (fun x y => key y ≤ key x) (stableSortDescBy key l) := by
  intro l
  induction l with
  | nil => simp [stableSortDescBy]
  | cons x xs ih => exact insertDescBy_sorted key x _ ih

/-- C4 counterexample: with minScore zero, a match whose score is exactly
zero satisfies score at least minScore but is dropped, because the filter
conjoins the comparison with the JS truthiness of the score and zero is
falsy. -/
theorem queryVectors_zero_score_cx :
    queryVectors [⟨"v0", some 0, ⟨"d1", "kb", 0, "c", "f.txt", 1, "t"⟩⟩] 0 = [] ∧
    (0 : ℚ) ≥ 0 := by
  constructor
  · show stableSortDescBy _ (List.filterMap (keepMatch 0)
      [⟨"v0", some 0, ⟨"d1", "kb", 0, "c", "f.txt", 1, "t"⟩⟩]) = []
    have hk : keepMatch 0 ⟨"v0", some 0, ⟨"d1", "kb", 0, "c", "f.txt", 1, "t"⟩⟩ = none := by
      show (if (0 : ℚ) ≠ 0 ∧ (0 : ℚ) ≤ 0 then
        some ⟨"v0", 0, ⟨"d1", "kb", 0, "c", "f.txt", 1, "t"⟩⟩ else none) = none
      rw [if_neg]
      intro hcontra
      exact hcontra.1 rfl
    simp [hk, stableSortDescBy]
  · exact le_refl 0

/-- C4 amended: queryVectors returns, sorted by descending score, exactly
the matches whose score is present, nonzero and at least minScore; a match
with a missing score or a score of exactly zero is dropped even when
minScore is zero, because the filter tests the JS truthiness of the score
before the comparison. -/
theorem queryVectors_spec (queryMatches : List PineconeMatch) (minScore : ℚ) :
    List.Pairwise (fun a b => b.score ≤ a.score) (queryVectors queryMatches minScore) ∧
    ∀ r : SearchResult, r ∈ queryVectors queryMatches minScore ↔
      ∃ m ∈ queryMatches, m.id = r.id ∧ m.metadata = r.metadata ∧
        m.score = some r.score ∧ r.score ≠ 0 ∧ minScore ≤ r.score := by
  constructor
  · exact stableSortDescBy_sorted (fun (x : SearchResult) => x.score) _
  · intro r
    simp only [queryVectors]
    rw [(stableSortDescBy_perm (fun (x : SearchResult) => x.score)
        (queryMatches.filterMap (keepMatch minScore))).mem_iff,
      List.mem_filterMap]
    constructor
    · rintro ⟨m, hm, hk⟩
      refine ⟨m, hm, ?_⟩
      cases hscore : m.score with
      | none =>
        simp only [keepMatch, hscore] at hk
        exact Option.noConfusion hk
      | some s =>
        simp only [keepMatch, hscore] at hk
        by_cases hcond : s ≠ 0 ∧ minScore ≤ s
        · rw [if_pos hcond] at hk
          have hr : (⟨m.id, s, m.metadata⟩ : SearchResult) = r := Option.some.inj hk
          subst hr
          exact ⟨rfl, rfl, rfl, hcond.1, hcond.2⟩
        · rw [if_neg hcond] at hk
          exact Option.noConfusion hk
    · rintro ⟨m, hm, hid, hmeta, hscore, hnz, hge⟩
      refine ⟨m, hm, ?_⟩
      cases r with
      | mk rid rscore rmeta =>
        simp only at hid hmeta hscore hnz hge
        simp only [keepMatch, hscore, if_pos (And.intro hnz hge)]
        rw [hid, hmeta]

/-- C6 counterexample: deleteVectorsByDocument does throw on an index
failure, rethrowing it as a ChatSDKError instead of swallowing it. -/
theorem deleteVectorsByDocument_throws_cx :
    deleteVectorsByDocument (.error "network down") =
      .error ⟨"bad_request:rag", "Failed to delete vectors: network down"⟩ := rfl

/-- C6 amended: deleteVectorsByKnowledgeBase swallows every index failure
and always returns successfully, while deleteVectorsByDocument rethrows
index failures as a ChatSDKError; its caller, the document DELETE route,
catches that error and proceeds with metadata deletion unconditionally, so
metadata deletion is never blocked for either path. -/
theorem vectorDeletion_never_blocks_metadata :
    (∀ (queryIds : Except String (List String))
       (deleteByIds : List String → Except String Unit),
       deleteVectorsByKnowledgeBase queryIds deleteByIds = .ok ()) ∧
    (∀ indexDelete : Except String Unit,
       (deleteDocumentRoute indexDelete).metadataDeleted = true) := by
  constructor
  · intro q d
    cases q with
    | error e => rfl
    | ok ids =>
      simp only [deleteVectorsByKnowledgeBase]
      by_cases h : ids.length > 0
      · rw [if_pos h]
        cases d ids with
        | ok u => rfl
        | error e => rfl
      · rw [if_neg h]
  · intro ind
    cases ind with
    | ok u => rfl
    | error e => rfl

/-- C5 counterexample: a valid upload creates the document row directly in
the processing status; no row is ever created in the uploading status. -/
theorem upload_status_cx :
    uploadAndProcessDocument ⟨"a.txt", "text/plain", 5⟩ (.ok ()) =
      .ok [UploadStep.putBlob "a.txt",
           UploadStep.createDocument RAGDocumentStatus.processing] ∧
    RAGDocumentStatus.processing ≠ RAGDocumentStatus.uploading := by
  constructor
  · rfl
  · intro h
    exact RAGDocumentStatus.noConfusion h

/-- C5 amended: whenever the upload accepts the bytes, the blob put
precedes the creation of the document row, and the row is created directly
with status processing, so the row exists only once the bytes are durably
stored; when the blob put fails, no store step is performed at all. -/
theorem uploadAndProcessDocument_trace (file : UploadFile)
    (blobPut : Except String Unit) :
    (∀ steps, uploadAndProcessDocument file blobPut = .ok steps →
       steps = [UploadStep.putBlob file.name,
                UploadStep.createDocument RAGDocumentStatus.processing]) ∧
    (∀ msg, blobPut = .error msg →
       ∃ e, uploadAndProcessDocument file blobPut = .error e) := by
  constructor
  · intro steps h
    unfold uploadAndProcessDocument at h
    by_cases h1 : ¬ allowedTypes.contains file.mimeType
    · rw [if_pos h1] at h
      exact Except.noConfusion h
    · rw [if_neg h1] at h
      by_cases h2 : maxUploadSize < file.size
      · rw [if_pos h2] at h
        exact Except.noConfusion h
      · rw [if_neg h2] at h
        cases blobPut with
        | error msg => exact Except.noConfusion h
        | ok u => exact (Except.ok.inj h).symm
  · intro msg hmsg
    subst hmsg
    unfold uploadAndProcessDocument
    by_cases h1 : ¬ allowedTypes.contains file.mimeType
    · rw [if_pos h1]
      exact ⟨_, rfl⟩
    · rw [if_neg h1]
      by_cases h2 : maxUploadSize < file.size
      · rw [if_pos h2]
        exact ⟨_, rfl⟩
      · rw [if_neg h2]
        exact ⟨_, rfl⟩

/-- Closed instance of the C5 amended theorem: a successful upload of a
plain-text file yields the blob put followed by row creation in status
processing, and a failed blob put yields an error with no store steps. -/
theorem uploadAndProcessDocument_trace_witness :
    [UploadStep.putBlob "a.txt",
     UploadStep.createDocument RAGDocumentStatus.processing] =
      [UploadStep.putBlob "a.txt",
       UploadStep.createDocument RAGDocumentStatus.processing] ∧
    ∃ e, uploadAndProcessDocument ⟨"a.txt", "text/plain", 5⟩ (.error "disk full") =
      .error e := by
  constructor
  · exact (uploadAndProcessDocument_trace ⟨"a.txt", "text/plain", 5⟩ (.ok ())).1
      [UploadStep.putBlob "a.txt",
       UploadStep.createDocument RAGDocumentStatus.processing] (by rfl)
  · exact (uploadAndProcessDocument_trace ⟨"a.txt", "text/plain", 5⟩
      (.error "disk full")).2 "disk full" rfl

/-- Appending in the Except monad: fail with the first failure, otherwise
concatenate the successes. -/
def exceptAppend {β ε : Type} : Except ε (List β) → Except ε (List β) → Except ε (List β)
  | .error e, _ => .error e
  | .ok _, .error e => .error e
  | .ok ys, .ok zs => .ok (ys ++ zs)

/-- Flattening in the Except monad, the shape of the final concatenation
of batch results in generateEmbeddings. -/
def exceptFlatten {β ε : Type} : Except ε (List (List β)) → Except ε (List β)
  | .error e => .error e
  | .ok bs => .ok bs.flatten

theorem mapE_append {α β ε : Type} (f : α → Except ε β) :
    ∀ (l1 l2 : List α),
      mapE f (l1 ++ l2) = exceptAppend (mapE f l1) (mapE f l2) := by
  intro l1 l2
  induction l1 with
  | nil =>
    simp only [List.nil_append, mapE]
    cases mapE f l2 with
    | error e => rfl
    | ok zs => simp [exceptAppend]
  | cons x xs ih =>
    rw [List.cons_append]
    simp only [mapE]
    cases f x with
    | error e => rfl
    | ok y =>
      rw [ih]
      cases mapE f xs with
      | error e => rfl
      | ok ys =>
        cases mapE f l2 with
        | error e => rfl
        | ok zs => simp [exceptAppend]

theorem mapE_ok_get {α β ε : Type} (f : α → Except ε β) :
    ∀ (l : List α) (out : List β), mapE f l = .ok out →
      out.length = l.length ∧
      ∀ (i : Nat) (hi : i < l.length) (ho : i < out.length),
        f (l.get ⟨i, hi⟩) = .ok (out.get ⟨i, ho⟩) := by
  intro l
  induction l with
  | nil =>
    intro out h
    simp only [mapE] at h
    have hout : ([] : List β) = out := Except.ok.inj h
    subst hout
    refine ⟨rfl, ?_⟩
    intro i hi
    simp at hi
  | cons x xs ih =>
    intro out h
    simp only [mapE] at h
    cases hfx : f x with
    | error e =>
      rw [hfx] at h
      exact Except.noConfusion h
    | ok y =>
      rw [hfx] at h
      cases hrec : mapE f xs with
      | error e =>
        rw [hrec] at h
        exact Except.noConfusion h
      | ok ys =>
        rw [hrec] at h
        have hout : y :: ys = out := Except.ok.inj h
        subst hout
        obtain ⟨hlen, hget⟩ := ih ys hrec
        refine ⟨by simp [hlen], ?_⟩
        intro i hi ho
        cases i with
        | zero => simpa using hfx
        | succ j =>
          have hj : j < xs.length := by simpa using hi
          have hjo : j < ys.length := by simpa using ho
          simpa using hget j hj hjo

theorem chunked_mapE {β ε : Type} (g : String → Except ε β) (b : Nat) (hb : 1 ≤ b) :
    ∀ (n : Nat) (l : List String), l.length ≤ n →
      exceptFlatten (mapE (fun batch => mapE g batch) (chunkBatches b l)) = mapE g l := by
  intro n
  induction n with
  | zero =>
    intro l hl
    have : l = [] := List.eq_nil_of_length_eq_zero (Nat.le_zero.mp hl)
    subst this
    simp [chunkBatches, mapE, exceptFlatten]
  | succ n ih =>
    intro l hl
    cases l with
    | nil => simp [chunkBatches, mapE, exceptFlatten]
    | cons x xs =>
      have hb0 : ¬ b = 0 := by omega
      have hdrop : (x :: xs).drop b = xs.drop (b - 1) := by
        cases b with
        | zero => omega
        | succ k => simp
      have hsplit : x :: xs = (x :: xs).take b ++ xs.drop (b - 1) := by
        rw [← hdrop, List.take_append_drop]
      have hlen : (xs.drop (b - 1)).length ≤ n := by
        simp only [List.length_drop]
        have hxs : xs.length + 1 ≤ n + 1 := by simpa using hl
        omega
      have ihrec := ih (xs.drop (b - 1)) hlen
      have hL : chunkBatches b (x :: xs) =
          (x :: xs).take b :: chunkBatches b (xs.drop (b - 1)) := by
        simp only [chunkBatches, if_neg hb0]
      rw [hL]
      conv_rhs => rw [hsplit]
      rw [mapE_append]
      simp only [mapE]
      cases hA : mapE g ((x :: xs).take b) with
      | error e => simp [exceptFlatten, exceptAppend]
      | ok ys =>
        cases hrec : mapE (fun batch => mapE g batch) (chunkBatches b (xs.drop (b - 1))) with
        | error e =>
          rw [hrec] at ihrec
          simp only [exceptFlatten] at ihrec
          simp [exceptFlatten, exceptAppend, ← ihrec]
        | ok bs =>
          rw [hrec] at ihrec
          simp only [exceptFlatten] at ihrec
          simp [exceptFlatten, exceptAppend, ← ihrec]

/-- C3: for every embedding provider response function, every text list
and every batch size of at least one, generateEmbeddings equals the
sequential map of generateEmbedding over the texts in input order, and on
success the output has one vector per text with element i the embedding of
text i. -/
theorem generateEmbeddings_eq_map
    (provider : String → Except ChatSDKError (Option (List ℚ)))
    (texts : List String) (batchSize : Nat) (hb : 1 ≤ batchSize) :
    generateEmbeddings provider texts batchSize =
      mapE (generateEmbedding provider) texts ∧
    ∀ out, generateEmbeddings provider texts batchSize = .ok out →
      out.length = texts.length ∧
      ∀ (i : Nat) (hi : i < texts.length) (ho : i < out.length),
        generateEmbedding provider (texts.get ⟨i, hi⟩) = .ok (out.get ⟨i, ho⟩) := by
  have hmain : generateEmbeddings provider texts batchSize =
      mapE (generateEmbedding provider) texts := by
    unfold generateEmbeddings
    by_cases hemp : texts.isEmpty
    · rw [if_pos hemp]
      have : texts = [] := List.isEmpty_iff.mp hemp
      subst this
      simp [mapE]
    · rw [if_neg hemp]
      have hch := chunked_mapE (generateEmbedding provider) batchSize hb texts.length texts
        (le_refl _)
      cases hx : mapE (fun batch => mapE (generateEmbedding provider) batch)
          (chunkBatches batchSize texts) with
      | error e =>
        rw [hx] at hch
        simp only [exceptFlatten] at hch
        exact hch
      | ok bs =>
        rw [hx] at hch
        simp only [exceptFlatten] at hch
        exact hch
  refine ⟨hmain, ?_⟩
  intro out hout
  rw [hmain] at hout
  exact mapE_ok_get (generateEmbedding provider) texts out hout

/-- Closed instance of the C3 theorem: with batch size two and three
texts, the batched embedding equals the sequential map. -/
theorem generateEmbeddings_eq_map_witness :
    generateEmbeddings (fun _ => .ok (some (List.replicate 1536 0))) ["a", "b", "c"] 2 =
      mapE (generateEmbedding (fun _ => .ok (some (List.replicate 1536 0)))) ["a", "b", "c"] :=
  (generateEmbeddings_eq_map (fun _ => .ok (some (List.replicate 1536 0)))
    ["a", "b", "c"] 2 (by omega)).1

theorem buildChunks_length (ov : Int) (fn : Option String) :
    ∀ (chunks : List String) (i : Nat) (cur : Int),
      (buildChunks ov fn chunks i cur).length = chunks.length := by
  intro chunks
  induction chunks with
  | nil => intro i cur; simp [buildChunks]
  | cons c cs ih =>
    intro i cur
    simp only [buildChunks, List.length_cons]
    rw [ih]

theorem buildChunks_indices (ov : Int) (fn : Option String) :
    ∀ (chunks : List String) (i : Nat) (cur : Int),
      (buildChunks ov fn chunks i cur).map (fun c => c.chunkIndex) =
        List.range' i chunks.length := by
  intro chunks
  induction chunks with
  | nil => intro i cur; simp [buildChunks]
  | cons c cs ih =>
    intro i cur
    have hr : List.range' i (cs.length + 1) = i :: List.range' (i + 1) cs.length := by
      simp [List.range']
    simp only [buildChunks, List.map_cons, List.length_cons, hr]
    rw [ih]

theorem renumberPage_length (pn : Nat) :
    ∀ (cs : List DocumentChunkData) (g : Nat),
      (renumberPage pn cs g).length = cs.length := by
  intro cs
  induction cs with
  | nil => intro g; simp [renumberPage]
  | cons c cs ih =>
    intro g
    simp only [renumberPage, List.length_cons]
    rw [ih]

theorem renumberPage_indices (pn : Nat) :
    ∀ (cs : List DocumentChunkData) (g : Nat),
      (renumberPage pn cs g).map (fun c => c.chunkIndex) =
        List.range' g cs.length := by
  intro cs
  induction cs with
  | nil => intro g; simp [renumberPage]
  | cons c cs ih =>
    intro g
    have hr : List.range' g (cs.length + 1) = g :: List.range' (g + 1) cs.length := by
      simp [List.range']
    simp only [renumberPage, List.map_cons, List.length_cons, hr]
    rw [ih]

theorem renumberPage_page (pn : Nat) :
    ∀ (cs : List DocumentChunkData) (g : Nat),
      ∀ c ∈ renumberPage pn cs g, c.metadata.page = some pn := by
  intro cs
  induction cs with
  | nil => intro g c hc; simp [renumberPage] at hc
  | cons d ds ih =>
    intro g c hc
    simp only [renumberPage, List.mem_cons] at hc
    rcases hc with rfl | hc
    · rfl
    · exact ih (g + 1) c hc

theorem splitPDFPagesGo_ok (splitter : String → List String)
    (fn : Option String) (ov : Int) :
    ∀ (pages : List PageInput) (g : Nat),
      (∀ p ∈ pages, jsTrim p.content ≠ "") →
      ∃ l, splitPDFPagesGo splitter fn ov pages g = .ok l ∧
        l.map (fun c => c.chunkIndex) = List.range' g l.length ∧
        ∃ blocks, l = blocks.flatten ∧
          List.Forall₂ (fun (p : PageInput) (blk : List DocumentChunkData) =>
            ∀ c ∈ blk, c.metadata.page = some p.pageNumber) pages blocks := by
  intro pages
  induction pages with
  | nil =>
    intro g _
    exact ⟨[], rfl, by simp, [], by simp, List.Forall₂.nil⟩
  | cons page rest ih =>
    intro g h
    have hpage : jsTrim page.content ≠ "" := h page (List.mem_cons_self _ _)
    have hrest : ∀ p ∈ rest, jsTrim p.content ≠ "" :=
      fun p hp => h p (List.mem_cons_of_mem _ hp)
    have hsplit : splitIntoChunks splitter page.content fn ov =
        .ok (buildChunks ov fn (splitter page.content) 0 0) := by
      unfold splitIntoChunks
      rw [if_neg hpage]
    obtain ⟨l2, hgo, hidx, blocks, hflat, hf2⟩ :=
      ih (g + (buildChunks ov fn (splitter page.content) 0 0).length) hrest
    refine ⟨renumberPage page.pageNumber (buildChunks ov fn (splitter page.content) 0 0) g
      ++ l2, ?_, ?_, ?_⟩
    · simp only [splitPDFPagesGo, hsplit, hgo]
    · rw [List.map_append, renumberPage_indices, hidx, List.length_append,
        renumberPage_length]
      have hap := List.range'_append g
        (buildChunks ov fn (splitter page.content) 0 0).length l2.length 1
      simp only [one_mul] at hap
      rw [hap, Nat.add_comm]
    · refine ⟨renumberPage page.pageNumber
        (buildChunks ov fn (splitter page.content) 0 0) g :: blocks, ?_, ?_⟩
      · simp [hflat]
      · exact List.Forall₂.cons
          (fun c hc => renumberPage_page page.pageNumber _ g c hc) hf2

/-- C7: for every splitter output, the chunker emits chunks whose ordinal
indices are exactly 0 to n-1 with no duplicates or gaps, both for a single
non-blank text and for the page-aware variant over non-blank pages, where
the ordinals are renumbered globally across pages while each chunk keeps
its page number in its metadata. -/
theorem chunker_ordinals (splitter : String → List String) (text : String)
    (fn : Option String) (ov : Int) (pages : List PageInput)
    (htext : jsTrim text ≠ "") (hpages : ∀ p ∈ pages, jsTrim p.content ≠ "") :
    (∃ l, splitIntoChunks splitter text fn ov = .ok l ∧
       l.map (fun c => c.chunkIndex) = List.range l.length) ∧
    (∃ l, splitPDFByPages splitter pages fn ov = .ok l ∧
       l.map (fun c => c.chunkIndex) = List.range l.length ∧
       ∃ blocks, l = blocks.flatten ∧
         List.Forall₂ (fun (p : PageInput) (blk : List DocumentChunkData) =>
           ∀ c ∈ blk, c.metadata.page = some p.pageNumber) pages blocks) := by
  constructor
  · refine ⟨buildChunks ov fn (splitter text) 0 0, ?_, ?_⟩
    · unfold splitIntoChunks
      rw [if_neg htext]
    · rw [buildChunks_indices, List.range_eq_range', buildChunks_length]
  · obtain ⟨l, hgo, hidx, blocks, hflat, hf2⟩ :=
      splitPDFPagesGo_ok splitter fn ov pages 0 hpages
    exact ⟨l, hgo, by rw [hidx, List.range_eq_range'], blocks, hflat, hf2⟩

/-- Closed instance of the C7 theorem with the identity splitter, a
two-character text and two one-chunk pages. -/
theorem chunker_ordinals_witness :
    (∃ l, splitIntoChunks (fun t => [t]) "ab" none 200 = .ok l ∧
       l.map (fun c => c.chunkIndex) = List.range l.length) ∧
    (∃ l, splitPDFByPages (fun t => [t]) [⟨"a", 3⟩, ⟨"b", 7⟩] none 200 = .ok l ∧
       l.map (fun c => c.chunkIndex) = List.range l.length ∧
       ∃ blocks, l = blocks.flatten ∧
         List.Forall₂ (fun (p : PageInput) (blk : List DocumentChunkData) =>
           ∀ c ∈ blk, c.metadata.page = some p.pageNumber) [⟨"a", 3⟩, ⟨"b", 7⟩] blocks) :=
  chunker_ordinals (fun t => [t]) "ab" none 200 [⟨"a", 3⟩, ⟨"b", 7⟩]
    (by decide) (by decide)

theorem buildChunks_tokenCount (ov : Int) (fn : Option String) :
    ∀ (chunks : List String) (i : Nat) (cur : Int),
      (∀ s ∈ chunks, jsTrim s = s) →
      ∀ c ∈ buildChunks ov fn chunks i cur,
        c.tokenCount = estimateTokenCount c.content := by
  intro chunks
  induction chunks with
  | nil => intro i cur _ c hc; simp [buildChunks] at hc
  | cons s ss ih =>
    intro i cur h c hc
    simp only [buildChunks, List.mem_cons] at hc
    rcases hc with rfl | hc
    · show estimateTokenCount s = estimateTokenCount (jsTrim s)
      rw [h s (List.mem_cons_self _ _)]
    · exact ih (i + 1) _ (fun s2 hs2 => h s2 (List.mem_cons_of_mem _ hs2)) c hc

/-- C8 counterexample: a splitter chunk with a leading space yields an
emitted chunk whose content is the trimmed text "abcd" but whose
tokenCount is computed from the raw pre-trim chunk, giving 2 instead of
the value 1 that the trimmed content length dictates. -/
theorem chunker_tokenCount_cx :
    splitIntoChunks (fun _ => [" abcd"]) "x" none 200 =
      .ok [⟨"abcd", 0, 2, ⟨0, 5, none, none⟩⟩] ∧
    estimateTokenCount "abcd" = 1 ∧ (2 : Nat) ≠ 1 := by
  refine ⟨?_, by decide, by decide⟩
  rfl

theorem buildChunks_forall2 (ov : Int) (fn : Option String) :
    ∀ (chunks : List String) (i : Nat) (cur : Int),
      List.Forall₂ (fun (s : String) (c : DocumentChunkData) =>
        c.tokenCount = estimateTokenCount s ∧ c.content = jsTrim s)
        chunks (buildChunks ov fn chunks i cur) := by
  intro chunks
  induction chunks with
  | nil => intro i cur; exact List.Forall₂.nil
  | cons s ss ih =>
    intro i cur
    exact List.Forall₂.cons ⟨rfl, rfl⟩ (ih (i + 1) _)

/-- C8 amended: each emitted chunk carries the token estimate of the raw
splitter chunk it came from, before trimming, while its content is that
chunk trimmed; in particular, whenever the splitter output is already
trimmed, every emitted chunk has tokenCount equal to the token estimate of
its emitted content. -/
theorem chunker_tokenCount (splitter : String → List String)
    (text : String) (fn : Option String) (ov : Int) :
    ∀ l, splitIntoChunks splitter text fn ov = .ok l →
      List.Forall₂ (fun (s : String) (c : DocumentChunkData) =>
        c.tokenCount = estimateTokenCount s ∧ c.content = jsTrim s)
        (splitter text) l ∧
      ((∀ s ∈ splitter text, jsTrim s = s) →
        ∀ c ∈ l, c.tokenCount = estimateTokenCount c.content) := by
  intro l hl
  unfold splitIntoChunks at hl
  by_cases htext : jsTrim text = ""
  · rw [if_pos htext] at hl
    exact Except.noConfusion hl
  · rw [if_neg htext] at hl
    have hb : buildChunks ov fn (splitter text) 0 0 = l := Except.ok.inj hl
    subst hb
    refine ⟨buildChunks_forall2 ov fn (splitter text) 0 0, ?_⟩
    intro htrimmed c hc
    exact buildChunks_tokenCount ov fn (splitter text) 0 0 htrimmed c hc

/-- Closed instance of the C8 amended theorem at a one-chunk trimmed
splitter output: the raw-chunk pairing holds and the emitted chunk has
tokenCount equal to the estimate of its content. -/
theorem chunker_tokenCount_witness :
    List.Forall₂ (fun (s : String) (c : DocumentChunkData) =>
      c.tokenCount = estimateTokenCount s ∧ c.content = jsTrim s)
      ["abcd"] [⟨"abcd", 0, 1, ⟨0, 4, none, none⟩⟩] ∧
    (⟨"abcd", 0, 1, ⟨0, 4, none, none⟩⟩ : DocumentChunkData).tokenCount =
      estimateTokenCount
        (⟨"abcd", 0, 1, ⟨0, 4, none, none⟩⟩ : DocumentChunkData).content := by
  have h := chunker_tokenCount (fun _ => ["abcd"]) "x" none 200
    [⟨"abcd", 0, 1, ⟨0, 4, none, none⟩⟩] (by rfl)
  exact ⟨h.1, h.2 (by decide) ⟨"abcd", 0, 1, ⟨0, 4, none, none⟩⟩ (by decide)⟩

theorem splitPDFPagesGo_blank (splitter : String → List String)
    (fn : Option String) (ov : Int) :
    ∀ (pages : List PageInput) (g : Nat),
      (∃ p ∈ pages, jsTrim p.content = "") →
      splitPDFPagesGo splitter fn ov pages g =
        .error ⟨"bad_request:rag", "Text cannot be empty"⟩ := by
  intro pages
  induction pages with
  | nil =>
    intro g h
    obtain ⟨p, hp, _⟩ := h
    simp at hp
  | cons page rest ih =>
    intro g h
    by_cases hpage : jsTrim page.content = ""
    · have hsplit : splitIntoChunks splitter page.content fn ov =
          .error ⟨"bad_request:rag", "Text cannot be empty"⟩ := by
        unfold splitIntoChunks
        rw [if_pos hpage]
      simp only [splitPDFPagesGo, hsplit]
    · obtain ⟨p, hp, hblank⟩ := h
      rcases List.mem_cons.mp hp with rfl | hprest
      · exact absurd hblank hpage
      · have hsplit : splitIntoChunks splitter page.content fn ov =
            .ok (buildChunks ov fn (splitter page.content) 0 0) := by
          unfold splitIntoChunks
          rw [if_neg hpage]
        have hrec := ih (g + (buildChunks ov fn (splitter page.content) 0 0).length)
          ⟨p, hprest, hblank⟩
        simp only [splitPDFPagesGo, hsplit, hrec]

/-- C10: if any page passed to the page-aware splitter is blank, the whole
call fails with the empty-text error and yields no chunks for any page,
rather than skipping the blank page and chunking the rest. -/
theorem splitPDFByPages_blank_page (splitter : String → List String)
    (pages : List PageInput) (fn : Option String) (ov : Int)
    (hblank : ∃ p ∈ pages, jsTrim p.content = "") :
    splitPDFByPages splitter pages fn ov =
      .error ⟨"bad_request:rag", "Text cannot be empty"⟩ :=
  splitPDFPagesGo_blank splitter fn ov pages 0 hblank

/-- Closed instance of the C10 theorem: a whitespace-only second page
fails the whole two-page call. -/
theorem splitPDFByPages_blank_page_witness :
    splitPDFByPages (fun t => [t]) [⟨"a", 1⟩, ⟨" ", 2⟩] none 200 =
      .error ⟨"bad_request:rag", "Text cannot be empty"⟩ :=
  splitPDFByPages_blank_page (fun t => [t]) [⟨"a", 1⟩, ⟨" ", 2⟩] none 200
    (by decide)
